import Mathlib

/-!
Verification of the dynamic array in `src/advanced-vector/vector.h`: a
`Vector<T>` (live-element count `size_` over a `RawMemory<T>` buffer of
capacity `data_.Capacity()`).

The state of a `Vector<T>` is modelled by `Vec α`: `elems` is the list of the
currently live, constructed elements (buffer slots `[0, size_)`, in order) and
`cap` is the capacity of the owned `RawMemory` buffer.  Slots
`[size_, cap)` are allocated but uninitialized and carry no value.  The
in-place buffer algorithms (`std::move_backward` inside `Vector::Moving`, the
left shift inside `Vector::Erase`) are modelled slot by slot, with `List.set`
as a single slot write and `List.getD` as a single slot read, in the order the
source performs them.  A `Bool` flag per fallible step (allocation,
construction of the new element) models exception outcomes, and a small
heap model (buffers addressed by allocation order) models pointer-level
ownership for the move/copy claims.
-/

namespace AdvancedVector

variable {α : Type}

/-- State of a `Vector<T>`: the live elements (slots `[0, size_)`) and the
capacity of the owned `RawMemory` buffer (`data_.Capacity()`). -/
structure Vec (α : Type) where
  elems : List α
  cap : Nat
  deriving Repr, DecidableEq

/-- `Vector::Size()` : returns `size_`, the number of live elements. -/
def Vec.Size (v : Vec α) : Nat := v.elems.length

/-- `Vector::Capacity()` : returns `data_.Capacity()`. -/
def Vec.Capacity (v : Vec α) : Nat := v.cap

/-- `Vector()` : default constructed — no allocation, `size_ = 0`,
`data_` is the default `RawMemory` (null buffer, capacity 0). -/
def Vec.mkEmpty : Vec α := ⟨[], 0⟩

/-- `Vector(size_t size)` : allocates capacity `size` and value-constructs
`size` elements (`std::uninitialized_value_construct_n`); `d` stands for the
value-initialized value of the element type. -/
def Vec.mkSized (n : Nat) (d : α) : Vec α := ⟨List.replicate n d, n⟩

/-- `Vector(const Vector& other)` : allocates capacity `other.size_` and
copies the `other.size_` live elements (`std::uninitialized_copy_n`). -/
def Vec.copyCtor (v : Vec α) : Vec α := ⟨v.elems, v.elems.length⟩

/-- `Vector(Vector&& other)` : `Swap(other)` against the default-constructed
`*this`; returns (the new vector, the moved-from source). -/
def Vec.moveCtor (v : Vec α) : Vec α × Vec α := (⟨v.elems, v.cap⟩, ⟨[], 0⟩)

/-- `Vector::Swap(other)` : `std::swap(size_, other.size_)` and
`data_.Swap(other.data_)` — a constant-time exchange of buffer and length. -/
def Vec.SwapOp (a b : Vec α) : Vec α × Vec α := (b, a)

/-- `operator=(Vector&& rhs)` for distinct objects (`this != &rhs`) :
`Swap(rhs)`.  Returns (the assigned-to vector, the right-hand side after the
assignment). -/
def Vec.moveAssign (dst src : Vec α) : Vec α × Vec α := (src, dst)

/-- `Vector::Reserve(new_capacity)` : no-op when
`new_capacity <= data_.Capacity()`; otherwise allocates a new buffer of
exactly `new_capacity` and runs `SwapRealocation`, which relocates the
`size_` live elements (move when `T`'s move cannot fail or `T` is not
copyable, else copy), destroys the originals and adopts the new buffer: the
live contents are unchanged and the capacity becomes `new_capacity`. -/
def Vec.Reserve (v : Vec α) (newCap : Nat) : Vec α :=
  if newCap ≤ v.cap then v else ⟨v.elems, newCap⟩

/-- `Vector::Resize(new_size)` : no-op when equal; when shrinking,
`std::destroy_n(data_ + new_size, size_ - new_size)`; when growing,
`Reserve(new_size)` then value-construct the added slots
(`std::uninitialized_value_construct_n(data_ + size_, new_size - size_)`);
`d` is the value-initialized element value. -/
def Vec.Resize (v : Vec α) (d : α) (newSize : Nat) : Vec α :=
  if v.Size = newSize then v
  else if newSize < v.Size then ⟨v.elems.take newSize, v.cap⟩
  else
    ⟨(v.Reserve newSize).elems ++ List.replicate (newSize - v.Size) d,
      (v.Reserve newSize).cap⟩

/-- `Vector::PopBack()` : when `size_ != 0`, destroys the last live element
(`std::destroy_at(data_ + (size_ - 1))`) and decrements `size_`; otherwise
does nothing. -/
def Vec.PopBack (v : Vec α) : Vec α :=
  if v.Size ≠ 0 then ⟨v.elems.dropLast, v.cap⟩ else v

/-- The capacity chosen when the buffer must grow:
`size_ == 0 ? 1 : size_ * 2`. -/
def Vec.growCap (v : Vec α) : Nat := if v.Size = 0 then 1 else v.Size * 2

/-- `Vector::EmplaceBack(args...)` : when `size_ == Capacity()`, allocates a
buffer of `growCap`, constructs the new element into slot `size_` of the new
buffer, then `SwapRealocation` relocates the old elements and adopts the
buffer; otherwise constructs directly into slot `size_`.  Increments
`size_`. -/
def Vec.EmplaceBack (v : Vec α) (x : α) : Vec α :=
  if v.Size = v.Capacity then
    ⟨v.elems ++ [x], v.growCap⟩
  else
    ⟨v.elems ++ [x], v.cap⟩

/-- `Vector::PushBack(value)` (both overloads): delegates to `EmplaceBack`. -/
def Vec.PushBack (v : Vec α) (x : α) : Vec α := v.EmplaceBack x

/-- `Vector::Realocation(position_new_element, args...)` : allocates a buffer
of `growCap`, constructs the new element at index `k` of the new buffer, then
relocates the prefix `[0, k)` to `[0, k)` and the suffix `[k, size_)` to
`[k + 1, size_ + 1)` (`std::uninitialized_move_n`/`copy_n`), destroys the old
elements and adopts the new buffer.  (`++size_` is done by the caller
`Emplace`.) -/
def Vec.Realocation (v : Vec α) (k : Nat) (x : α) : Vec α :=
  ⟨v.elems.take k ++ [x] ++ v.elems.drop k, v.growCap⟩

/-- Core loop of `std::move_backward(b + first, b + last, b + dLast)` :
repeatedly `*(--dLast) = std::move(*(--last))`; `m` is the remaining
iteration count `last - first`. -/
def moveBackwardN (d : α) : Nat → List α → Nat → Nat → List α
  | 0, b, _, _ => b
  | m + 1, b, last, dLast =>
      moveBackwardN d m (b.set (dLast - 1) (b.getD (last - 1) d)) (last - 1) (dLast - 1)

/-- `std::move_backward(b + first, b + last, b + dLast)` on buffer `b`. -/
def moveBackward (d : α) (first : Nat) (b : List α) (last dLast : Nat) : List α :=
  moveBackwardN d (last - first) b last dLast

/-- The buffer produced by `Vector::Moving` once the temporary `tmp` has been
constructed: `new (data_ + size_) T(std::move(*std::prev(end())))` (append a
move of the last live element into the uninitialized tail slot), then
`std::move_backward(data_ + k, end() - 1, end())`, then
`data_[k] = std::move(tmp)`. -/
def MovingRun (l : List α) (d : α) (k : Nat) (tmp : α) : List α :=
  (moveBackward d k (l ++ [l.getD (l.length - 1) d]) (l.length - 1) l.length).set k tmp

/-- `Vector::Moving(position_new_element, args...)` (insert within capacity,
`k < size_`) with a non-aliased argument: `T tmp(args...)` constructs
`tmp := x` first, then the buffer choreography of `MovingRun`.
(`++size_` is done by the caller `Emplace`.) -/
def Vec.Moving (v : Vec α) (d : α) (k : Nat) (x : α) : Vec α :=
  ⟨MovingRun v.elems d k x, v.cap⟩

/-- `Vector::Emplace(pos, args...)` at index `k = pos - cbegin()` : delegates
to `EmplaceBack` when `pos == cend()` (the returned iterator is
`&data_[size_ - 1]` after the increment, index `size_` before it); otherwise
`Realocation` (when `size_ == Capacity()`) or `Moving`, then `++size_`;
returns the new state and the index of the returned iterator
(`&data_[position_new_element]`). -/
def Vec.Emplace (v : Vec α) (d : α) (k : Nat) (x : α) : Vec α × Nat :=
  if k = v.Size then (v.EmplaceBack x, v.Size)
  else if v.Size = v.Capacity then (v.Realocation k x, k)
  else (v.Moving d k x, k)

/-- `Vector::Insert(pos, value)` (both overloads): delegates to `Emplace`. -/
def Vec.Insert (v : Vec α) (d : α) (k : Nat) (x : α) : Vec α × Nat :=
  v.Emplace d k x

/-- `Vector::Moving` when the argument aliases slot `i` of the vector itself
(`Insert(pos, v[i])`): `T tmp(std::forward<Args>(args)...)` dereferences the
argument at the moment `tmp` is constructed — before the tail construction
and the backward shift touch the buffer — so the read `l.getD i d` is taken
on the buffer as it was at entry. -/
def MovingRunAliased (l : List α) (d : α) (k i : Nat) : List α :=
  MovingRun l d k (l.getD i d)

/-- `Vector::Emplace`/`Insert` whose argument is a reference into the vector
itself (`v[i]`): each branch dereferences the argument exactly where the
source constructs from it (`EmplaceBack`'s placement-`new` into the free tail
slot, `Realocation`'s placement-`new` into the fresh buffer, `Moving`'s
`T tmp(args...)` before the shift). -/
def Vec.EmplaceAliased (v : Vec α) (d : α) (k i : Nat) : Vec α × Nat :=
  if k = v.Size then (v.EmplaceBack (v.elems.getD i d), v.Size)
  else if v.Size = v.Capacity then (v.Realocation k (v.elems.getD i d), k)
  else (⟨MovingRunAliased v.elems d k i, v.cap⟩, k)

/-- Core loop of `std::move(b + first, b + last, b + dFirst)` (and of
`std::copy`): repeatedly `*dFirst++ = std::move(*first++)`; `m` is the
remaining iteration count `last - first`. -/
def moveForwardN (d : α) : Nat → List α → Nat → Nat → List α
  | 0, b, _, _ => b
  | m + 1, b, first, dFirst =>
      moveForwardN d m (b.set dFirst (b.getD first d)) (first + 1) (dFirst + 1)

/-- `std::move(b + first, b + last, b + dFirst)` on buffer `b`. -/
def moveForward (d : α) (last : Nat) (b : List α) (first dFirst : Nat) : List α :=
  moveForwardN d (last - first) b first dFirst

/-- `Vector::Erase(pos)` at index `k = pos - cbegin()` (the source `assert`s
`k < size_`): shifts `[k + 1, size_)` one slot left in place
(`std::move(position_erase_element + 1, end(), position_erase_element)`, or
`std::copy` under the same trait condition), destroys the vacated last slot
(`std::destroy_at(std::prev(end()))`), decrements `size_`; returns the new
state and the index of the returned iterator (`data_ + k`). -/
def Vec.Erase (v : Vec α) (d : α) (k : Nat) : Vec α × Nat :=
  ((⟨(moveForward d v.elems.length v.elems (k + 1) k).take (v.elems.length - 1),
      v.cap⟩ : Vec α), k)

/-- `operator=(const Vector& rhs)` for distinct objects (`this != &rhs`):
copy-and-swap when `rhs.size_ > data_.Capacity()`, otherwise an in-place
element-wise copy of the common prefix followed by destruction of the excess
(shrinking) or `uninitialized_copy_n` of the remaining source elements into
the tail (growing). -/
def Vec.copyAssign (dst src : Vec α) : Vec α :=
  if src.Size > dst.Capacity then
    -- Vector rhs_copy(rhs); Swap(rhs_copy);
    Vec.copyCtor src
  else if dst.Size = src.Size then
    -- std::copy(rhs.data_.GetAddress(), rhs.data_ + size_, data_.GetAddress())
    ⟨src.elems.take dst.Size ++ dst.elems.drop src.Size, dst.cap⟩
  else
    -- size_for_copy = min(size_, rhs.size_); std::copy of that prefix …
    if dst.Size > src.Size then
      -- … then destroy_n(data_ + size_for_copy, size_ - rhs.size_)
      ⟨(src.elems.take (min dst.Size src.Size) ++
          dst.elems.drop (min dst.Size src.Size)).take src.Size, dst.cap⟩
    else
      -- … then uninitialized_copy_n(rhs.data_ + size_for_copy, rhs.size_ - size_, …)
      ⟨(src.elems.take (min dst.Size src.Size) ++
          dst.elems.drop (min dst.Size src.Size)) ++
          src.elems.drop (min dst.Size src.Size), dst.cap⟩

/-! ## Fallible model

Each growth operation is re-run with explicit outcomes for its two fallible
steps: `allocOk = false` means the `RawMemory<T> new_data(…)` allocation
throws `std::bad_alloc`; `ctorOk = false` means the placement-`new` of the new
element (or, for `Resize`, the value-construction of an added slot) throws.
The `Except.error` value carries the vector state the caller observes after
the exception propagates.  Relocation of the existing elements is outside
these flags: the claims under study concern only allocation failure and
new-element construction failure. -/

/-- `Vector::Reserve` with an explicit allocation outcome.  The allocation
`RawMemory<T> new_data(new_capacity)` is the first action of the growth path;
when it throws, nothing has been mutated. -/
def Vec.ReserveF (v : Vec α) (newCap : Nat) (allocOk : Bool) :
    Except (Vec α) (Vec α) :=
  if newCap ≤ v.cap then .ok v
  else if !allocOk then .error v
  else .ok ⟨v.elems, newCap⟩

/-- `Vector::EmplaceBack` with explicit outcomes: on the growth path the
source allocates `new_data`, then constructs the new element into
`new_data + size_`, and only then relocates (`SwapRealocation`); a failure of
either step leaves `data_` and `size_` untouched (a failing construction in
`new_data` is followed by `new_data`'s own release).  Within capacity the only
fallible step is the construction into the tail slot. -/
def Vec.EmplaceBackF (v : Vec α) (x : α) (allocOk ctorOk : Bool) :
    Except (Vec α) (Vec α) :=
  if v.Size = v.Capacity then
    if !allocOk then .error v
    else if !ctorOk then .error v
    else .ok ⟨v.elems ++ [x], v.growCap⟩
  else
    if !ctorOk then .error v
    else .ok ⟨v.elems ++ [x], v.cap⟩

/-- `Vector::Realocation` with explicit outcomes: allocation of `new_data`,
then `new (new_data + position_new_element) T(args…)`, both before any
existing element is relocated or destroyed. -/
def Vec.RealocationF (v : Vec α) (k : Nat) (x : α) (allocOk ctorOk : Bool) :
    Except (Vec α) (Vec α) :=
  if !allocOk then .error v
  else if !ctorOk then .error v
  else .ok (v.Realocation k x)

/-- `Vector::Emplace` with explicit outcomes.  On the `Moving` path the only
step in claim scope is `T tmp(args…)`, constructed before the buffer is
touched. -/
def Vec.EmplaceF (v : Vec α) (d : α) (k : Nat) (x : α) (allocOk ctorOk : Bool) :
    Except (Vec α) (Vec α × Nat) :=
  if k = v.Size then
    match v.EmplaceBackF x allocOk ctorOk with
    | .error w => .error w
    | .ok w => .ok (w, v.Size)
  else if v.Size = v.Capacity then
    match v.RealocationF k x allocOk ctorOk with
    | .error w => .error w
    | .ok w => .ok (w, k)
  else
    if !ctorOk then .error v
    else .ok (v.Moving d k x, k)

/-- `Vector::Resize` with explicit outcomes.  On the growing path the source
first runs `Reserve(new_size)` (which already adopts the new buffer) and only
then value-constructs the added slots: a construction failure there
propagates after the capacity change has been committed. -/
def Vec.ResizeF (v : Vec α) (d : α) (newSize : Nat) (allocOk ctorOk : Bool) :
    Except (Vec α) (Vec α) :=
  if v.Size = newSize then .ok v
  else if newSize < v.Size then .ok ⟨v.elems.take newSize, v.cap⟩
  else
    match v.ReserveF newSize allocOk with
    | .error w => .error w
    | .ok w =>
      if !ctorOk then .error w
      else .ok ⟨w.elems ++ List.replicate (newSize - v.Size) d, w.cap⟩

/-! ## Heap model

A pointer-level model for the ownership claims: buffers live in a heap
(a list of buffers, addressed by allocation order; `operator new` returns an
address distinct from every live allocation, modelled as the next index).  A
vector holds the address of its buffer (`none` = `nullptr`, the default
`RawMemory`) and its `size_`. -/

/-- `Vector<T>` at the pointer level: buffer address and `size_`. -/
structure HVec where
  buf : Option Nat
  size : Nat
  deriving Repr, DecidableEq

/-- The block a vector's buffer address points to (empty for `nullptr`). -/
def hbuf (bufs : List (List α)) (v : HVec) : List α :=
  match v.buf with
  | none => []
  | some b => bufs.getD b []

/-- The live elements of `v`, read through the heap: slots `[0, size_)` of
its buffer. -/
def hread (bufs : List (List α)) (v : HVec) : List α :=
  (hbuf bufs v).take v.size

/-- `Vector(const Vector& other)` at the pointer level: allocates a fresh
buffer and copies `other`'s live elements into it
(`std::uninitialized_copy_n`).  Returns the new heap and the new vector. -/
def hcopyCtor (bufs : List (List α)) (v : HVec) : List (List α) × HVec :=
  (bufs ++ [hread bufs v], ⟨some bufs.length, v.size⟩)

/-- `Vector(Vector&& other)` at the pointer level: `Swap(other)` against the
default-constructed vector — the buffer address is taken over unchanged, no
allocation and no element copy happens, and `other` is left with the null
buffer and `size_ = 0`.  Returns (destination, moved-from source). -/
def hmoveCtor (v : HVec) : HVec × HVec := (⟨v.buf, v.size⟩, ⟨none, 0⟩)

/-- `operator=(Vector&& rhs)` at the pointer level (`this != &rhs`):
`Swap(rhs)` exchanges the two buffer addresses and lengths; the heap is not
touched.  Returns (the assigned-to vector, the right-hand side after). -/
def hmoveAssign (dst src : HVec) : HVec × HVec := (src, dst)

/-- A single element write through vector `v` (`v[i] = x`): mutates slot `i`
of `v`'s buffer in the heap. -/
def hwrite (bufs : List (List α)) (v : HVec) (i : Nat) (x : α) :
    List (List α) :=
  match v.buf with
  | none => bufs
  | some b => bufs.set b ((bufs.getD b []).set i x)

/-! ## PushBack/PopBack sequences (growth policy) -/

/-- One tail operation: `PushBack(x)` or `PopBack()`. -/
inductive PP (α : Type) where
  | push (x : α)
  | pop
  deriving Repr, DecidableEq

/-- Apply one tail operation. -/
def applyPP (v : Vec α) : PP α → Vec α
  | .push x => v.PushBack x
  | .pop => v.PopBack

/-- Run a sequence of tail operations, left to right. -/
def runPP (v : Vec α) (ops : List (PP α)) : Vec α :=
  ops.foldl applyPP v

/-- Number of `push` operations in a sequence. -/
def pushCount : List (PP α) → Nat
  | [] => 0
  | .push _ :: r => pushCount r + 1
  | .pop :: r => pushCount r

/-- Number of `pop` operations in a sequence. -/
def popCount : List (PP α) → Nat
  | [] => 0
  | .push _ :: r => popCount r
  | .pop :: r => popCount r + 1

/-- A sequence is valid from a vector of size `n` when every `pop` happens
on a non-empty vector (the `PopBack` contract `size_ > 0`). -/
def validSeq : Nat → List (PP α) → Bool
  | _, [] => true
  | n, .push _ :: r => validSeq (n + 1) r
  | n, .pop :: r => decide (0 < n) && validSeq (n - 1) r

/-! ## The representation invariant and the public-operation step relation -/

/-- The representation invariant of `Vector<T>`: the live-element count never
exceeds the capacity of the owned buffer; slots `[Size, Capacity)` are
allocated but hold no live element. -/
def Vec.Inv (v : Vec α) : Prop := v.Size ≤ v.Capacity

instance (v : Vec α) : Decidable v.Inv :=
  inferInstanceAs (Decidable (v.Size ≤ v.Capacity))

/-- One public mutating operation of `Vector<T>`, as a step relation on
states.  Assignment and swap steps take the other operand's state as a
parameter (with its own invariant); `Emplace` and `Erase` carry the index
bounds their source `assert`s/requires. -/
inductive Step (d : α) : Vec α → Vec α → Prop where
  | reserve (v : Vec α) (n : Nat) : Step d v (v.Reserve n)
  | resize (v : Vec α) (n : Nat) : Step d v (v.Resize d n)
  | pushBack (v : Vec α) (x : α) : Step d v (v.PushBack x)
  | popBack (v : Vec α) : Step d v v.PopBack
  | emplace (v : Vec α) (k : Nat) (x : α) (hk : k ≤ v.Size) :
      Step d v (v.Emplace d k x).1
  | erase (v : Vec α) (k : Nat) (hk : k < v.Size) :
      Step d v (v.Erase d k).1
  | copyAssignOp (v src : Vec α) : Step d v (v.copyAssign src)
  | moveAssignDst (v src : Vec α) (hs : src.Inv) :
      Step d v (v.moveAssign src).1
  | moveAssignSrc (v dst : Vec α) (hd : dst.Inv) :
      Step d v (Vec.moveAssign dst v).2
  | swapWith (v w : Vec α) (hw : w.Inv) : Step d v (Vec.SwapOp v w).1
  | movedFrom (v : Vec α) : Step d v v.moveCtor.2

/-! ## Buffer-algorithm lemmas -/

lemma moveBackwardN_length (d : α) :
    ∀ (m : Nat) (b : List α) (last dLast : Nat),
      (moveBackwardN d m b last dLast).length = b.length := by
  intro m
  induction m with
  | zero => intro b last dLast; rfl
  | succ m ih =>
    intro b last dLast
    show (moveBackwardN d m (b.set (dLast - 1) (b.getD (last - 1) d))
        (last - 1) (dLast - 1)).length = b.length
    rw [ih, List.length_set]

lemma moveBackwardN_getElem? (d : α) :
    ∀ (m : Nat) (b : List α) (last : Nat), m ≤ last → last < b.length →
      ∀ j, (moveBackwardN d m b last (last + 1))[j]? =
        if last - m < j ∧ j ≤ last then b[j - 1]? else b[j]? := by
  intro m
  induction m with
  | zero =>
    intro b last _ _ j
    have hcond : ¬(last - 0 < j ∧ j ≤ last) := by omega
    simp only [moveBackwardN, hcond, if_false]
  | succ m ih =>
    intro b last hm hlast j
    have hunf : moveBackwardN d (m + 1) b last (last + 1) =
        moveBackwardN d m (b.set last (b.getD (last - 1) d)) (last - 1)
          ((last - 1) + 1) := by
      show moveBackwardN d m (b.set (last + 1 - 1) (b.getD (last - 1) d))
          (last - 1) (last + 1 - 1) = _
      have e1 : last + 1 - 1 = last := by omega
      have e2 : last - 1 + 1 = last := by omega
      rw [e1, e2]
    have hlen : last - 1 < (b.set last (b.getD (last - 1) d)).length := by
      simp only [List.length_set]; omega
    have ihres := ih (b.set last (b.getD (last - 1) d)) (last - 1)
      (by omega) hlen j
    rw [hunf, ihres]
    by_cases hA : last - 1 - m < j ∧ j ≤ last - 1
    · have hB : last - (m + 1) < j ∧ j ≤ last := by omega
      simp only [hA, hB, if_true]
      exact List.getElem?_set_ne (by omega)
    · by_cases hB : last - (m + 1) < j ∧ j ≤ last
      · have hj : j = last := by omega
        subst hj
        simp only [hA, hB, if_true, if_false]
        rw [List.getElem?_set_self hlast,
          List.getD_eq_getElem?_getD,
          List.getElem?_eq_getElem (show j - 1 < b.length by omega)]
        rfl
      · simp only [hA, hB, if_false]
        exact List.getElem?_set_ne (by omega)

lemma moveForwardN_length (d : α) :
    ∀ (m : Nat) (b : List α) (first dFirst : Nat),
      (moveForwardN d m b first dFirst).length = b.length := by
  intro m
  induction m with
  | zero => intro b first dFirst; rfl
  | succ m ih =>
    intro b first dFirst
    show (moveForwardN d m (b.set dFirst (b.getD first d))
        (first + 1) (dFirst + 1)).length = b.length
    rw [ih, List.length_set]

lemma moveForwardN_getElem? (d : α) :
    ∀ (m : Nat) (b : List α) (dFirst : Nat), dFirst + 1 + m ≤ b.length →
      ∀ j, (moveForwardN d m b (dFirst + 1) dFirst)[j]? =
        if dFirst ≤ j ∧ j < dFirst + m then b[j + 1]? else b[j]? := by
  intro m
  induction m with
  | zero =>
    intro b dFirst _ j
    have hcond : ¬(dFirst ≤ j ∧ j < dFirst + 0) := by omega
    simp only [moveForwardN, hcond, if_false]
  | succ m ih =>
    intro b dFirst hlen j
    have hunf : moveForwardN d (m + 1) b (dFirst + 1) dFirst =
        moveForwardN d m (b.set dFirst (b.getD (dFirst + 1) d))
          ((dFirst + 1) + 1) (dFirst + 1) := rfl
    have hlen2 : (dFirst + 1) + 1 + m ≤
        (b.set dFirst (b.getD (dFirst + 1) d)).length := by
      simp only [List.length_set]; omega
    have ihres := ih (b.set dFirst (b.getD (dFirst + 1) d)) (dFirst + 1)
      hlen2 j
    rw [hunf, ihres]
    by_cases hA : dFirst + 1 ≤ j ∧ j < dFirst + 1 + m
    · have hB : dFirst ≤ j ∧ j < dFirst + (m + 1) := by omega
      simp only [hA, hB, if_true]
      exact List.getElem?_set_ne (by omega)
    · by_cases hB : dFirst ≤ j ∧ j < dFirst + (m + 1)
      · have hj : j = dFirst := by omega
        subst hj
        simp only [hA, hB, if_true, if_false]
        rw [List.getElem?_set_self (show j < b.length by omega),
          List.getD_eq_getElem?_getD,
          List.getElem?_eq_getElem (show j + 1 < b.length by omega)]
        rfl
      · simp only [hA, hB, if_false]
        exact List.getElem?_set_ne (by omega)

lemma insertAt_getElem? (l : List α) (x : α) (k j : Nat) (hk : k ≤ l.length) :
    (l.take k ++ [x] ++ l.drop k)[j]? =
      if j < k then l[j]? else if j = k then some x else l[j - 1]? := by
  have hlt : (l.take k).length = k := by rw [List.length_take]; omega
  by_cases h1 : j < k
  · rw [if_pos h1,
      List.getElem?_append_left
        (show j < (l.take k ++ [x]).length by
          rw [List.length_append, hlt, List.length_singleton]; omega),
      List.getElem?_append_left (show j < (l.take k).length by rw [hlt]; omega),
      List.getElem?_take_of_lt h1]
  · by_cases h2 : j = k
    · subst h2
      rw [if_neg h1, if_pos rfl,
        List.getElem?_append_left
          (show j < (l.take j ++ [x]).length by
            rw [List.length_append, hlt, List.length_singleton]; omega),
        List.getElem?_append_right (show (l.take j).length ≤ j by rw [hlt]),
        hlt]
      simp
    · rw [if_neg h1, if_neg h2,
        List.getElem?_append_right
          (show (l.take k ++ [x]).length ≤ j by
            rw [List.length_append, hlt, List.length_singleton]; omega),
        List.length_append, hlt, List.length_singleton, List.getElem?_drop,
        show k + (j - (k + 1)) = j - 1 from by omega]

lemma MovingRun_eq (l : List α) (d tmp : α) (k : Nat) (hk : k < l.length) :
    MovingRun l d k tmp = l.take k ++ [tmp] ++ l.drop k := by
  apply List.ext_getElem?
  intro j
  unfold MovingRun moveBackward
  have hb1len : (l ++ [l.getD (l.length - 1) d]).length = l.length + 1 := by
    simp
  have hchar := moveBackwardN_getElem? d (l.length - 1 - k)
    (l ++ [l.getD (l.length - 1) d]) (l.length - 1) (by omega)
    (by rw [hb1len]; omega)
  have e2 : (l.length - 1) + 1 = l.length := by omega
  rw [e2] at hchar
  have ecc : (l.length - 1) - (l.length - 1 - k) = k := by omega
  rw [ecc] at hchar
  have hmblen : (moveBackwardN d (l.length - 1 - k)
      (l ++ [l.getD (l.length - 1) d]) (l.length - 1) l.length).length =
      l.length + 1 := by
    rw [moveBackwardN_length, hb1len]
  rw [insertAt_getElem? l tmp k j (by omega)]
  by_cases hj : j = k
  · subst hj
    rw [List.getElem?_set_self (by rw [hmblen]; omega)]
    simp
  · rw [List.getElem?_set_ne (fun h => hj h.symm), hchar j]
    by_cases h1 : j < k
    · have hC : ¬(k < j ∧ j ≤ l.length - 1) := by omega
      simp only [hC, if_false, h1, if_true]
      exact List.getElem?_append_left (by omega)
    · simp only [h1, if_false, hj, if_false]
      by_cases h2 : j ≤ l.length - 1
      · have hC : k < j ∧ j ≤ l.length - 1 := by omega
        simp only [hC, if_true]
        exact List.getElem?_append_left (by omega)
      · have hC : ¬(k < j ∧ j ≤ l.length - 1) := by omega
        simp only [hC, if_false]
        by_cases h3 : j = l.length
        · subst h3
          rw [List.getElem?_append_right (by omega)]
          have e0 : l.length - l.length = 0 := by omega
          rw [e0]
          rw [List.getD_eq_getElem?_getD,
            List.getElem?_eq_getElem (show l.length - 1 < l.length by omega)]
          rfl
        · rw [List.getElem?_eq_none (by rw [hb1len]; omega),
            List.getElem?_eq_none (by omega)]

lemma eraseShift_getElem? (l : List α) (d : α) (k : Nat) (hk : k < l.length) :
    ∀ j : Nat, ((moveForward d l.length l (k + 1) k).take (l.length - 1))[j]? =
      (l.take k ++ l.drop (k + 1))[j]? := by
  intro j
  unfold moveForward
  have hchar := moveForwardN_getElem? d (l.length - (k + 1)) l k (by omega) j
  have hmflen : (moveForwardN d (l.length - (k + 1)) l (k + 1) k).length =
      l.length := moveForwardN_length d _ l _ _
  have hlt : (l.take k).length = k := by rw [List.length_take]; omega
  by_cases h1 : j < l.length - 1
  · rw [List.getElem?_take_of_lt h1, hchar, List.getElem?_append]
    simp only [hlt]
    by_cases h2 : k ≤ j ∧ j < k + (l.length - (k + 1))
    · rw [if_pos h2]
      by_cases h3 : j < k
      · omega
      · rw [if_neg h3, List.getElem?_drop,
          show k + 1 + (j - k) = j + 1 from by omega]
    · rw [if_neg h2]
      by_cases h3 : j < k
      · rw [if_pos h3, List.getElem?_take_of_lt h3]
      · omega
  · have hL : ((moveForwardN d (l.length - (k + 1)) l (k + 1) k).take
        (l.length - 1)).length ≤ j := by
      rw [List.length_take, hmflen]; omega
    have hR : (l.take k ++ l.drop (k + 1)).length ≤ j := by
      rw [List.length_append, hlt, List.length_drop]; omega
    rw [List.getElem?_eq_none hL, List.getElem?_eq_none hR]

/-! ## Operation-level lemmas -/

lemma Size_def (v : Vec α) : v.Size = v.elems.length := rfl

lemma Capacity_def (v : Vec α) : v.Capacity = v.cap := rfl

lemma insertAt_length (l : List α) (x : α) (k : Nat) (hk : k ≤ l.length) :
    (l.take k ++ [x] ++ l.drop k).length = l.length + 1 := by
  simp only [List.length_append, List.length_take, List.length_drop,
    List.length_singleton]
  omega

lemma EmplaceBack_elems (v : Vec α) (x : α) :
    (v.EmplaceBack x).elems = v.elems ++ [x] := by
  unfold Vec.EmplaceBack
  split_ifs <;> rfl

lemma EmplaceBack_cap (v : Vec α) (x : α) :
    (v.EmplaceBack x).cap = if v.Size = v.Capacity then v.growCap else v.cap := by
  unfold Vec.EmplaceBack
  split_ifs <;> rfl

lemma Emplace_elems (v : Vec α) (d x : α) (k : Nat) (hk : k ≤ v.Size) :
    (v.Emplace d k x).1.elems = v.elems.take k ++ [x] ++ v.elems.drop k := by
  unfold Vec.Emplace
  by_cases h1 : k = v.Size
  · rw [if_pos h1]
    show (v.EmplaceBack x).elems = _
    rw [EmplaceBack_elems, h1]
    show v.elems ++ [x] = v.elems.take v.elems.length ++ [x] ++
      v.elems.drop v.elems.length
    rw [List.take_length, List.drop_length, List.append_nil]
  · rw [if_neg h1]
    by_cases h2 : v.Size = v.Capacity
    · rw [if_pos h2]
      rfl
    · rw [if_neg h2]
      exact MovingRun_eq v.elems d x k
        (by simp only [Size_def] at hk h1; omega)

lemma Emplace_cap (v : Vec α) (d x : α) (k : Nat) :
    (v.Emplace d k x).1.cap =
      if v.Size = v.Capacity then v.growCap else v.cap := by
  unfold Vec.Emplace Vec.EmplaceBack Vec.Realocation Vec.Moving
  split_ifs <;> rfl

lemma Emplace_Size (v : Vec α) (d x : α) (k : Nat) (hk : k ≤ v.Size) :
    (v.Emplace d k x).1.Size = v.Size + 1 := by
  show (v.Emplace d k x).1.elems.length = v.elems.length + 1
  rw [Emplace_elems v d x k hk, insertAt_length v.elems x k hk]

lemma Erase_elems (v : Vec α) (d : α) (k : Nat) (hk : k < v.Size) :
    (v.Erase d k).1.elems = v.elems.take k ++ v.elems.drop (k + 1) :=
  List.ext_getElem? (eraseShift_getElem? v.elems d k hk)

lemma Erase_Size (v : Vec α) (d : α) (k : Nat) (hk : k < v.Size) :
    (v.Erase d k).1.Size = v.Size - 1 := by
  show (v.Erase d k).1.elems.length = v.elems.length - 1
  rw [Erase_elems v d k hk]
  simp only [List.length_append, List.length_take, List.length_drop]
  simp only [Size_def] at hk
  omega

lemma copyAssign_elems (dst src : Vec α) :
    (dst.copyAssign src).elems = src.elems := by
  unfold Vec.copyAssign
  by_cases h1 : src.Size > dst.Capacity
  · rw [if_pos h1]
    rfl
  · rw [if_neg h1]
    by_cases h2 : dst.Size = src.Size
    · rw [if_pos h2]
      show src.elems.take dst.Size ++ dst.elems.drop src.Size = src.elems
      have e1 : src.elems.take dst.Size = src.elems :=
        List.take_of_length_le (by simp only [Size_def] at h2 ⊢; omega)
      have e2 : dst.elems.drop src.Size = [] :=
        List.drop_eq_nil_of_le (by simp only [Size_def] at h2 ⊢; omega)
      rw [e1, e2, List.append_nil]
    · rw [if_neg h2]
      by_cases h3 : dst.Size > src.Size
      · rw [if_pos h3]
        show (src.elems.take (min dst.Size src.Size) ++
            dst.elems.drop (min dst.Size src.Size)).take src.Size = src.elems
        have emin : min dst.Size src.Size = src.elems.length := by
          simp only [Size_def] at h3 ⊢; omega
        rw [emin, List.take_length]
        exact List.take_left' rfl
      · rw [if_neg h3]
        show (src.elems.take (min dst.Size src.Size) ++
            dst.elems.drop (min dst.Size src.Size)) ++
            src.elems.drop (min dst.Size src.Size) = src.elems
        have emin : min dst.Size src.Size = dst.elems.length := by
          simp only [Size_def] at h2 h3 ⊢; omega
        rw [emin, List.drop_length, List.append_nil]
        exact List.take_append_drop _ _

lemma copyAssign_cap (dst src : Vec α) :
    (dst.copyAssign src).cap =
      if src.Size > dst.Capacity then src.Size else dst.cap := by
  unfold Vec.copyAssign
  split_ifs <;> rfl

/-! ## Invariant preservation -/

lemma Inv_def (v : Vec α) : v.Inv ↔ v.elems.length ≤ v.cap := Iff.rfl

lemma Reserve_Inv {v : Vec α} (hv : v.Inv) (n : Nat) : (v.Reserve n).Inv := by
  unfold Vec.Reserve
  split_ifs with h
  · exact hv
  · rw [Inv_def] at hv
    show v.elems.length ≤ n
    omega

lemma Resize_Inv {v : Vec α} (hv : v.Inv) (d : α) (n : Nat) :
    (v.Resize d n).Inv := by
  unfold Vec.Resize
  split_ifs with h1 h2
  · exact hv
  · rw [Inv_def] at hv ⊢
    simp only [List.length_take]
    omega
  · show ((v.Reserve n).elems ++ List.replicate (n - v.Size) d).length ≤
      (v.Reserve n).cap
    rw [Inv_def] at hv
    simp only [Size_def] at h1 h2
    unfold Vec.Reserve
    split_ifs with h3
    · show (v.elems ++ List.replicate (n - v.elems.length) d).length ≤ v.cap
      simp only [List.length_append, List.length_replicate]
      omega
    · show (v.elems ++ List.replicate (n - v.elems.length) d).length ≤ n
      simp only [List.length_append, List.length_replicate]
      omega

lemma EmplaceBack_Inv {v : Vec α} (hv : v.Inv) (x : α) :
    (v.EmplaceBack x).Inv := by
  rw [Inv_def] at hv ⊢
  rw [show (v.EmplaceBack x).elems = v.elems ++ [x] from EmplaceBack_elems v x,
    show (v.EmplaceBack x).cap = _ from EmplaceBack_cap v x]
  simp only [List.length_append, List.length_singleton]
  unfold Vec.growCap
  simp only [Size_def, Capacity_def]
  split_ifs <;> omega

lemma PopBack_Inv {v : Vec α} (hv : v.Inv) : v.PopBack.Inv := by
  unfold Vec.PopBack
  rw [Inv_def] at hv ⊢
  split_ifs with h
  · simp only [List.length_dropLast]
    omega
  · exact hv

lemma Emplace_Inv {v : Vec α} (hv : v.Inv) (d x : α) (k : Nat)
    (hk : k ≤ v.Size) : (v.Emplace d k x).1.Inv := by
  rw [Inv_def]
  rw [show (v.Emplace d k x).1.elems = _ from Emplace_elems v d x k hk,
    show (v.Emplace d k x).1.cap = _ from Emplace_cap v d x k,
    insertAt_length v.elems x k (by simpa [Size_def] using hk)]
  rw [Inv_def] at hv
  unfold Vec.growCap
  simp only [Size_def, Capacity_def]
  split_ifs <;> omega

lemma Erase_Inv {v : Vec α} (hv : v.Inv) (d : α) (k : Nat)
    (hk : k < v.Size) : (v.Erase d k).1.Inv := by
  rw [Inv_def]
  rw [show (v.Erase d k).1.elems = _ from Erase_elems v d k hk]
  have hcap : (v.Erase d k).1.cap = v.cap := rfl
  rw [hcap]
  rw [Inv_def] at hv
  simp only [List.length_append, List.length_take, List.length_drop]
  simp only [Size_def] at hk
  omega

lemma copyAssign_Inv (dst src : Vec α) : (dst.copyAssign src).Inv := by
  rw [Inv_def, copyAssign_elems, copyAssign_cap]
  simp only [Size_def, Capacity_def]
  split_ifs with h
  · omega
  · omega

lemma step_preserves_Inv {d : α} {v w : Vec α} (hv : v.Inv)
    (h : Step d v w) : w.Inv := by
  cases h with
  | reserve n => exact Reserve_Inv hv n
  | resize n => exact Resize_Inv hv d n
  | pushBack x => exact EmplaceBack_Inv hv x
  | popBack => exact PopBack_Inv hv
  | emplace k x hk => exact Emplace_Inv hv d x k hk
  | erase k hk => exact Erase_Inv hv d k hk
  | copyAssignOp src => exact copyAssign_Inv v src
  | moveAssignDst src hs => exact hs
  | moveAssignSrc dst hd => exact hd
  | swapWith w hw => exact hw
  | movedFrom => exact Nat.le_refl 0

/-! ## PushBack/PopBack sequence lemmas -/

lemma PushBack_Size (v : Vec α) (x : α) : (v.PushBack x).Size = v.Size + 1 := by
  show (v.PushBack x).elems.length = v.elems.length + 1
  rw [show (v.PushBack x).elems = v.elems ++ [x] from EmplaceBack_elems v x]
  simp

lemma PopBack_Size (v : Vec α) : v.PopBack.Size = v.Size - 1 := by
  unfold Vec.PopBack
  split_ifs with h
  · show v.elems.dropLast.length = v.elems.length - 1
    simp
  · simp only [Size_def] at h ⊢
    omega

lemma applyPP_cap_mono (v : Vec α) (op : PP α) : v.cap ≤ (applyPP v op).cap := by
  cases op with
  | push x =>
    show v.cap ≤ (v.PushBack x).cap
    rw [show (v.PushBack x).cap = _ from EmplaceBack_cap v x]
    unfold Vec.growCap
    simp only [Size_def, Capacity_def]
    split_ifs <;> omega
  | pop =>
    show v.cap ≤ v.PopBack.cap
    unfold Vec.PopBack
    split_ifs <;> exact Nat.le_refl _

lemma runPP_cap_mono (ops : List (PP α)) :
    ∀ v : Vec α, v.cap ≤ (runPP v ops).cap := by
  induction ops with
  | nil => intro v; exact Nat.le_refl _
  | cons op r ih =>
    intro v
    exact Nat.le_trans (applyPP_cap_mono v op) (ih (applyPP v op))

lemma runPP_size (ops : List (PP α)) :
    ∀ v : Vec α, validSeq v.Size ops = true →
      (runPP v ops).Size + popCount ops = v.Size + pushCount ops := by
  induction ops with
  | nil => intro v _; rfl
  | cons op r ih =>
    intro v hval
    cases op with
    | push x =>
      have hval2 : validSeq (v.PushBack x).Size r = true := by
        rw [PushBack_Size]
        exact hval
      have := ih (v.PushBack x) hval2
      show (runPP (v.PushBack x) r).Size + popCount (.push x :: r) =
        v.Size + pushCount (.push x :: r)
      rw [PushBack_Size] at this
      unfold popCount pushCount
      omega
    | pop =>
      have hval1 : 0 < v.Size ∧ validSeq (v.Size - 1) r = true := by
        have : (decide (0 < v.Size) && validSeq (v.Size - 1) r) = true := hval
        simp only [Bool.and_eq_true, decide_eq_true_eq] at this
        exact this
      have hval2 : validSeq v.PopBack.Size r = true := by
        rw [PopBack_Size]
        exact hval1.2
      have := ih v.PopBack hval2
      show (runPP v.PopBack r).Size + popCount (.pop :: r) =
        v.Size + pushCount (.pop :: r)
      rw [PopBack_Size] at this
      unfold popCount pushCount
      have hpos := hval1.1
      omega

lemma applyPP_growth (w : Vec α) (op : PP α)
    (h : (applyPP w op).Capacity ≠ w.Capacity) :
    (w.Capacity = 0 ∧ (applyPP w op).Capacity = 1) ∨
      (applyPP w op).Capacity = 2 * w.Capacity := by
  cases op with
  | push x =>
    have hc : (applyPP w (.push x)).Capacity =
        if w.Size = w.Capacity then w.growCap else w.cap := EmplaceBack_cap w x
    rw [hc] at h ⊢
    unfold Vec.growCap at h ⊢
    simp only [Size_def, Capacity_def] at h ⊢
    split_ifs at h ⊢ with h1 h2 <;> omega
  | pop =>
    exfalso
    apply h
    show (Vec.PopBack w).Capacity = w.Capacity
    unfold Vec.PopBack
    split_ifs <;> rfl

/-! ## Claim theorems -/

lemma Reserve_elems (v : Vec α) (n : Nat) : (v.Reserve n).elems = v.elems := by
  unfold Vec.Reserve
  split_ifs <;> rfl

/-- C1, counterexample: move assignment is implemented as `Swap(rhs)`, so the
moved-from vector receives the destination's previous contents.  Moving from
`⟨[1, 2], 2⟩` into the non-empty destination `⟨[5], 1⟩` leaves the source with
one element, not `Size() == 0` as the claim states. -/
theorem C1_counterexample :
    (Vec.moveAssign (⟨[5], 1⟩ : Vec Nat) ⟨[1, 2], 2⟩).2.Size ≠ 0 := by
  decide

/-- C1 (amended): move construction leaves the source valid and empty and the
destination holding exactly the source's prior elements in order; move
assignment is a constant-time exchange of storage and length — the
destination holds the source's prior elements, while the source is left
holding the destination's prior contents (so it is empty exactly when the
destination was empty).  At the pointer level the buffer address is taken
over unchanged (no allocation, no element-wise copy). -/
theorem C1_move_transfer (v w : Vec α) (hv hw : HVec) :
    v.moveCtor.1 = v ∧
    v.moveCtor.2.Size = 0 ∧
    (Vec.moveAssign w v).1 = v ∧
    (Vec.moveAssign w v).2 = w ∧
    ((Vec.moveAssign w v).2.Size = 0 ↔ w.Size = 0) ∧
    hmoveCtor hv = (hv, ⟨none, 0⟩) ∧
    (hmoveCtor hv).1.buf = hv.buf ∧
    hmoveAssign hw hv = (hv, hw) :=
  ⟨rfl, rfl, rfl, rfl, Iff.rfl, rfl, rfl, rfl⟩

/-- C2: `Emplace`/`Insert` at index `k ≤ N` yields size `N + 1`, element `k`
equal to the inserted value, elements `[0, k)` unchanged, elements
`[k + 1, N + 1)` equal to the original `[k, N)`, and returns the index of the
inserted element — in the `EmplaceBack` delegation, the reallocating
(`Realocation`) and the within-capacity (`Moving`) case alike. -/
theorem C2_insert_at_position (v : Vec α) (d x : α) (k : Nat)
    (hk : k ≤ v.Size) :
    (v.Emplace d k x).1.Size = v.Size + 1 ∧
    (v.Emplace d k x).1.elems = v.elems.take k ++ [x] ++ v.elems.drop k ∧
    (v.Emplace d k x).1.elems.getD k d = x ∧
    (∀ j : Nat, j < k →
      (v.Emplace d k x).1.elems.getD j d = v.elems.getD j d) ∧
    (∀ j : Nat, k < j → j ≤ v.Size →
      (v.Emplace d k x).1.elems.getD j d = v.elems.getD (j - 1) d) ∧
    (v.Emplace d k x).2 = k ∧
    v.Insert d k x = v.Emplace d k x := by
  have hk' : k ≤ v.elems.length := hk
  have helems := Emplace_elems v d x k hk
  refine ⟨Emplace_Size v d x k hk, helems, ?_, ?_, ?_, ?_, rfl⟩
  · rw [helems, List.getD_eq_getElem?_getD, insertAt_getElem? v.elems x k k hk']
    simp
  · intro j hj
    rw [helems, List.getD_eq_getElem?_getD, insertAt_getElem? v.elems x k j hk',
      if_pos hj, ← List.getD_eq_getElem?_getD]
  · intro j hj1 hj2
    rw [helems, List.getD_eq_getElem?_getD, insertAt_getElem? v.elems x k j hk',
      if_neg (by omega), if_neg (by omega), ← List.getD_eq_getElem?_getD]
  · unfold Vec.Emplace
    split_ifs with h1 h2
    · exact h1.symm
    · rfl
    · rfl

/-- Witness for C2: inserting 9 at index 1 of `[10, 20, 30]`, once with spare
capacity (the `Moving` path) and once at full capacity (the `Realocation`
path). -/
theorem C2_witness :
    (Vec.Emplace (⟨[10, 20, 30], 4⟩ : Vec Nat) 0 1 9).1.elems =
      [10, 9, 20, 30] ∧
    (Vec.Emplace (⟨[10, 20, 30], 3⟩ : Vec Nat) 0 1 9).1.elems =
      [10, 9, 20, 30] := by
  constructor
  · have h := C2_insert_at_position (⟨[10, 20, 30], 4⟩ : Vec Nat) 0 9 1
      (by decide)
    rw [h.2.1]
    rfl
  · have h := C2_insert_at_position (⟨[10, 20, 30], 3⟩ : Vec Nat) 0 9 1
      (by decide)
    rw [h.2.1]
    rfl

/-- C3: `Erase` at index `k < N` yields size `N - 1`, elements `[0, k)`
unchanged, elements `[k, N - 1)` equal to the original `[k + 1, N)`, the
capacity unchanged, and returns index `k` (which equals the new size — the
end position — exactly when the last element was erased). -/
theorem C3_erase_at_position (v : Vec α) (d : α) (k : Nat) (hk : k < v.Size) :
    (v.Erase d k).1.Size = v.Size - 1 ∧
    (v.Erase d k).1.elems = v.elems.take k ++ v.elems.drop (k + 1) ∧
    (∀ j : Nat, j < k →
      (v.Erase d k).1.elems.getD j d = v.elems.getD j d) ∧
    (∀ j : Nat, k ≤ j → j < v.Size - 1 →
      (v.Erase d k).1.elems.getD j d = v.elems.getD (j + 1) d) ∧
    (v.Erase d k).1.Capacity = v.Capacity ∧
    (v.Erase d k).2 = k := by
  have hk' : k < v.elems.length := hk
  have helems := Erase_elems v d k hk
  have hlt : (v.elems.take k).length = k := by
    rw [List.length_take]; omega
  refine ⟨Erase_Size v d k hk, helems, ?_, ?_, rfl, rfl⟩
  · intro j hj
    rw [helems, List.getD_eq_getElem?_getD,
      List.getElem?_append_left (by rw [hlt]; omega),
      List.getElem?_take_of_lt hj, ← List.getD_eq_getElem?_getD]
  · intro j hj1 hj2
    rw [helems, List.getD_eq_getElem?_getD,
      List.getElem?_append_right (by rw [hlt]; omega),
      hlt, List.getElem?_drop,
      show k + 1 + (j - k) = j + 1 from by omega,
      ← List.getD_eq_getElem?_getD]

/-- Witness for C3: erasing index 0 of `[1, 2, 3]`. -/
theorem C3_witness :
    (Vec.Erase (⟨[1, 2, 3], 3⟩ : Vec Nat) 0 0).1.elems = [2, 3] ∧
    (Vec.Erase (⟨[1, 2, 3], 3⟩ : Vec Nat) 0 0).1.Size = 2 ∧
    (Vec.Erase (⟨[1, 2, 3], 3⟩ : Vec Nat) 0 0).2 = 0 := by
  have h := C3_erase_at_position (⟨[1, 2, 3], 3⟩ : Vec Nat) 0 0 (by decide)
  refine ⟨by rw [h.2.1]; rfl, by rw [h.1]; rfl, h.2.2.2.2.2⟩

/-- C4, counterexample: `PopBack` on an empty vector is a no-op, so the
sequence `[PopBack, PushBack 0]` run from the empty vector ends with
`Size() == 1`, not the initial size plus the net push count `1 - 1 = 0`. -/
theorem C4_counterexample :
    ¬(((runPP (Vec.mkEmpty : Vec Nat) [PP.pop, PP.push 0]).Size : Int) =
      ((Vec.mkEmpty : Vec Nat).Size : Int) +
        (pushCount [PP.pop, PP.push (0 : Nat)] : Int) -
        (popCount [PP.pop, PP.push (0 : Nat)] : Int)) := by
  decide

/-- C4 (amended): for every `PushBack`/`PopBack` sequence in which every pop
happens on a non-empty vector, the final size plus the pop count equals the
initial size plus the push count; for arbitrary sequences the capacity never
decreases, and any step that changes the capacity either grows it from 0 to 1
or at least doubles it. -/
theorem C4_tail_sequences (v : Vec α) (ops : List (PP α)) :
    (validSeq v.Size ops = true →
      (runPP v ops).Size + popCount ops = v.Size + pushCount ops) ∧
    v.Capacity ≤ (runPP v ops).Capacity ∧
    (∀ (w : Vec α) (op : PP α),
      (applyPP w op).Capacity ≠ w.Capacity →
        (w.Capacity = 0 ∧ (applyPP w op).Capacity = 1) ∨
        2 * w.Capacity ≤ (applyPP w op).Capacity) := by
  refine ⟨runPP_size ops v, runPP_cap_mono ops v, fun w op h => ?_⟩
  rcases applyPP_growth w op h with h1 | h1
  · exact Or.inl h1
  · exact Or.inr (Nat.le_of_eq h1.symm)

/-- Witness for C4: the sequence `[PushBack 1, PushBack 2, PopBack]` from the
empty vector, and the capacity growth of the first push. -/
theorem C4_witness :
    (runPP (Vec.mkEmpty : Vec Nat) [PP.push 1, PP.push 2, PP.pop]).Size +
        popCount [PP.push 1, PP.push 2, PP.pop] =
      (Vec.mkEmpty : Vec Nat).Size +
        pushCount [PP.push 1, PP.push 2, PP.pop] ∧
    (Vec.mkEmpty : Vec Nat).Capacity ≤
      (runPP (Vec.mkEmpty : Vec Nat) [PP.push 1, PP.push 2, PP.pop]).Capacity ∧
    ((Vec.mkEmpty : Vec Nat).Capacity = 0 ∧
        (applyPP (Vec.mkEmpty : Vec Nat) (PP.push 1)).Capacity = 1 ∨
      2 * (Vec.mkEmpty : Vec Nat).Capacity ≤
        (applyPP (Vec.mkEmpty : Vec Nat) (PP.push 1)).Capacity) := by
  have h := C4_tail_sequences (Vec.mkEmpty : Vec Nat)
    [PP.push 1, PP.push 2, PP.pop]
  exact ⟨h.1 (by decide), h.2.1,
    h.2.2 (Vec.mkEmpty : Vec Nat) (PP.push 1) (by decide)⟩

lemma hread_eq (bufs : List (List α)) (v : HVec) (b : Nat)
    (hb : v.buf = some b) :
    hread bufs v = (bufs.getD b []).take v.size := by
  unfold hread hbuf
  rw [hb]

lemma hwrite_some (bufs : List (List α)) (v : HVec) (c i : Nat) (x : α)
    (hc : v.buf = some c) :
    hwrite bufs v i x = bufs.set c ((bufs.getD c []).set i x) := by
  unfold hwrite
  rw [hc]

lemma EmplaceBackF_cases (v : Vec α) (x : α) (ao co : Bool) :
    v.EmplaceBackF x ao co = Except.error v ∨
      ∃ r, v.EmplaceBackF x ao co = Except.ok r := by
  unfold Vec.EmplaceBackF
  split_ifs
  · exact Or.inl rfl
  · exact Or.inl rfl
  · exact Or.inr ⟨_, rfl⟩
  · exact Or.inl rfl
  · exact Or.inr ⟨_, rfl⟩

lemma RealocationF_cases (v : Vec α) (k : Nat) (x : α) (ao co : Bool) :
    v.RealocationF k x ao co = Except.error v ∨
      ∃ r, v.RealocationF k x ao co = Except.ok r := by
  unfold Vec.RealocationF
  split_ifs
  · exact Or.inl rfl
  · exact Or.inl rfl
  · exact Or.inr ⟨_, rfl⟩

lemma ReserveF_false (v : Vec α) (n : Nat) :
    v.ReserveF n false = Except.error v ∨
      v.ReserveF n false = Except.ok v := by
  unfold Vec.ReserveF
  by_cases h : n ≤ v.cap
  · rw [if_pos h]
    exact Or.inr rfl
  · rw [if_neg h]
    exact Or.inl rfl

lemma ReserveF_spec (v : Vec α) (n : Nat) (ao : Bool) :
    v.ReserveF n ao = Except.error v ∨
      ∃ w, v.ReserveF n ao = Except.ok w ∧ w.elems = v.elems := by
  unfold Vec.ReserveF
  split_ifs
  · exact Or.inr ⟨v, rfl, rfl⟩
  · exact Or.inl rfl
  · exact Or.inr ⟨_, rfl, rfl⟩

/-- C5, counterexample: on the growing path `Resize` first runs `Reserve`
(which adopts the new storage) and only then value-constructs the added
slots.  If that construction fails, the exception leaves the vector with the
grown capacity: `Resize(2)` on `⟨[0], 1⟩` with a failing element constructor
ends with capacity 2, not the original capacity 1 that the claim requires. -/
theorem C5_counterexample :
    Vec.ResizeF (⟨[0], 1⟩ : Vec Nat) 0 2 true false =
      Except.error ⟨[0], 2⟩ ∧
    Vec.Capacity (⟨[0], 2⟩ : Vec Nat) ≠ Vec.Capacity (⟨[0], 1⟩ : Vec Nat) := by
  exact ⟨rfl, by decide⟩

/-- C5 (amended): for `Reserve`, `EmplaceBack`/`PushBack` and
`Emplace`/`Insert`, a failure of the allocation or of the construction of the
new element leaves the vector exactly as it was (the error state is the
original state).  For `Resize`, an allocation failure also leaves the vector
exactly as it was, but a failure while value-constructing the added slots can
leave the capacity grown — only the size and the live elements are
guaranteed unchanged. -/
theorem C5_growth_failure_safety (v : Vec α) (d x : α) (k n : Nat)
    (ao co : Bool) :
    (v.ReserveF n ao = Except.error v ∨
      ∃ r, v.ReserveF n ao = Except.ok r) ∧
    (v.EmplaceBackF x ao co = Except.error v ∨
      ∃ r, v.EmplaceBackF x ao co = Except.ok r) ∧
    (v.EmplaceF d k x ao co = Except.error v ∨
      ∃ r, v.EmplaceF d k x ao co = Except.ok r) ∧
    (v.ResizeF d n false co = Except.error v ∨
      ∃ r, v.ResizeF d n false co = Except.ok r) ∧
    ((∃ w, v.ResizeF d n ao co = Except.error w ∧
        w.elems = v.elems ∧ w.Size = v.Size) ∨
      ∃ r, v.ResizeF d n ao co = Except.ok r) := by
  refine ⟨?_, EmplaceBackF_cases v x ao co, ?_, ?_, ?_⟩
  · rcases ReserveF_spec v n ao with h | ⟨w, hw, _⟩
    · exact Or.inl h
    · exact Or.inr ⟨w, hw⟩
  · unfold Vec.EmplaceF
    split_ifs with h1 h2 h3
    · rcases EmplaceBackF_cases v x ao co with hE | ⟨r, hE⟩
      · rw [hE]
        exact Or.inl rfl
      · rw [hE]
        exact Or.inr ⟨(r, v.Size), rfl⟩
    · rcases RealocationF_cases v k x ao co with hE | ⟨r, hE⟩
      · rw [hE]
        exact Or.inl rfl
      · rw [hE]
        exact Or.inr ⟨(r, k), rfl⟩
    · exact Or.inl rfl
    · exact Or.inr ⟨_, rfl⟩
  · unfold Vec.ResizeF
    by_cases h1 : v.Size = n
    · rw [if_pos h1]
      exact Or.inr ⟨v, rfl⟩
    · rw [if_neg h1]
      by_cases h2 : n < v.Size
      · rw [if_pos h2]
        exact Or.inr ⟨_, rfl⟩
      · rw [if_neg h2]
        rcases ReserveF_false v n with hR | hR
        · rw [hR]
          exact Or.inl rfl
        · rw [hR]
          cases co
          · exact Or.inl rfl
          · exact Or.inr ⟨_, rfl⟩
  · unfold Vec.ResizeF
    by_cases h1 : v.Size = n
    · rw [if_pos h1]
      exact Or.inr ⟨v, rfl⟩
    · rw [if_neg h1]
      by_cases h2 : n < v.Size
      · rw [if_pos h2]
        exact Or.inr ⟨_, rfl⟩
      · rw [if_neg h2]
        rcases ReserveF_spec v n ao with hR | ⟨w, hR, hw⟩
        · rw [hR]
          exact Or.inl ⟨v, rfl, rfl, rfl⟩
        · rw [hR]
          cases co
          · exact Or.inl ⟨w, rfl, hw, by rw [Size_def, Size_def, hw]⟩
          · exact Or.inr ⟨_, rfl⟩

/-- C6: the representation invariant `0 ≤ length ≤ capacity` holds for every
constructed state (default, sized, copy- and move-constructed) and is
preserved by every public mutating operation, hence by every reachable
state. -/
theorem C6_invariant (d dv : α) (n : Nat) (v w : Vec α) :
    (Vec.mkEmpty : Vec α).Inv ∧
    (Vec.mkSized n dv).Inv ∧
    (Vec.copyCtor v).Inv ∧
    v.moveCtor.2.Inv ∧
    (v.Inv → v.moveCtor.1.Inv) ∧
    (Relation.ReflTransGen (Step d) v w → v.Inv → w.Inv) := by
  refine ⟨Nat.le_refl 0, ?_, Nat.le_refl _, Nat.le_refl 0, fun h => h, ?_⟩
  · show (List.replicate n dv).length ≤ n
    simp
  · intro hsteps hv
    induction hsteps with
    | refl => exact hv
    | tail hab hstep ih => exact step_preserves_Inv ih hstep

/-- Witness for C6: the invariant of a sized construction, and of the state
reached from the empty vector by one `PushBack` step. -/
theorem C6_witness :
    (Vec.mkSized 2 (0 : Nat)).Inv ∧
    ((Vec.mkEmpty : Vec Nat).PushBack 7).Inv := by
  have h := C6_invariant (0 : Nat) 0 2 (Vec.mkEmpty : Vec Nat)
    ((Vec.mkEmpty : Vec Nat).PushBack 7)
  exact ⟨h.2.1, h.2.2.2.2.2
    (Relation.ReflTransGen.single (Step.pushBack Vec.mkEmpty 7))
    (by decide)⟩

/-- C7: `Resize(newSize)` is a no-op when `newSize == Size()`; when shrinking
it truncates to the first `newSize` elements, sets the size to `newSize` and
never changes the capacity; when growing it first reserves capacity
`newSize` (so the final capacity is `Reserve(newSize)`'s and is at least
`newSize`) and then value-constructs the added slots with the default value,
preserving the existing elements. -/
theorem C7_resize (v : Vec α) (d : α) (n : Nat) :
    v.Resize d v.Size = v ∧
    (n < v.Size →
      (v.Resize d n).elems = v.elems.take n ∧
      (v.Resize d n).Size = n ∧
      (v.Resize d n).Capacity = v.Capacity) ∧
    (v.Size < n →
      (v.Resize d n).elems = v.elems ++ List.replicate (n - v.Size) d ∧
      (v.Resize d n).Size = n ∧
      (v.Resize d n).Capacity = (v.Reserve n).Capacity ∧
      n ≤ (v.Resize d n).Capacity) := by
  refine ⟨?_, ?_, ?_⟩
  · unfold Vec.Resize
    rw [if_pos rfl]
  · intro h
    unfold Vec.Resize
    rw [if_neg (by omega), if_pos h]
    refine ⟨rfl, ?_, rfl⟩
    show (v.elems.take n).length = n
    rw [List.length_take]
    simp only [Size_def] at h
    omega
  · intro h
    unfold Vec.Resize
    rw [if_neg (by omega), if_neg (by omega)]
    refine ⟨?_, ?_, rfl, ?_⟩
    · show (v.Reserve n).elems ++ _ = _
      rw [Reserve_elems]
    · show ((v.Reserve n).elems ++ List.replicate (n - v.Size) d).length = n
      rw [Reserve_elems]
      simp only [List.length_append, List.length_replicate]
      simp only [Size_def] at h ⊢
      omega
    · show n ≤ (v.Reserve n).cap
      unfold Vec.Reserve
      split_ifs with h3
      · exact h3
      · exact Nat.le_refl n

/-- Witness for C7: `Resize(2)` on a five-element vector of capacity 5
(shrinking: last three destroyed, capacity kept) and `Resize(4)` on a
two-element vector of capacity 2 (growing: default value appended). -/
theorem C7_witness :
    (Vec.Resize (⟨[1, 1, 1, 1, 1], 5⟩ : Vec Nat) 0 2).elems = [1, 1] ∧
    (Vec.Resize (⟨[1, 1, 1, 1, 1], 5⟩ : Vec Nat) 0 2).Size = 2 ∧
    (Vec.Resize (⟨[1, 1, 1, 1, 1], 5⟩ : Vec Nat) 0 2).Capacity = 5 ∧
    (Vec.Resize (⟨[1, 2], 2⟩ : Vec Nat) 0 4).elems = [1, 2, 0, 0] := by
  have h1 := (C7_resize (⟨[1, 1, 1, 1, 1], 5⟩ : Vec Nat) 0 2).2.1 (by decide)
  have h2 := (C7_resize (⟨[1, 2], 2⟩ : Vec Nat) 0 4).2.2 (by decide)
  exact ⟨by rw [h1.1]; rfl, h1.2.1, by rw [h1.2.2]; rfl, by rw [h2.1]; rfl⟩

/-- C8: `PopBack` on a non-empty vector destroys exactly the last live
element — the size drops by one, the capacity and all remaining elements are
unchanged; `PopBack` on an empty vector is a no-op. -/
theorem C8_popback (v : Vec α) (d : α) :
    (v.Size ≠ 0 →
      v.PopBack.Size = v.Size - 1 ∧
      v.PopBack.Capacity = v.Capacity ∧
      v.PopBack.elems = v.elems.dropLast ∧
      (∀ j : Nat, j < v.Size - 1 →
        v.PopBack.elems.getD j d = v.elems.getD j d)) ∧
    (v.Size = 0 → v.PopBack = v) := by
  constructor
  · intro h
    have helems : v.PopBack.elems = v.elems.dropLast := by
      unfold Vec.PopBack
      rw [if_pos h]
    have hcap : v.PopBack.Capacity = v.Capacity := by
      unfold Vec.PopBack
      rw [if_pos h]
      rfl
    refine ⟨PopBack_Size v, hcap, helems, ?_⟩
    intro j hj
    rw [helems, List.getD_eq_getElem?_getD, List.getElem?_dropLast,
      if_pos (by simp only [Size_def] at hj; omega : j < v.elems.length - 1),
      ← List.getD_eq_getElem?_getD]
  · intro h
    unfold Vec.PopBack
    rw [if_neg (fun hne => hne h)]

/-- Witness for C8: popping `[4, 5]` and popping the empty vector. -/
theorem C8_witness :
    (Vec.PopBack (⟨[4, 5], 2⟩ : Vec Nat)).elems = [4] ∧
    (Vec.PopBack (⟨[4, 5], 2⟩ : Vec Nat)).Size = 1 ∧
    Vec.PopBack (Vec.mkEmpty : Vec Nat) = Vec.mkEmpty := by
  have h1 := (C8_popback (⟨[4, 5], 2⟩ : Vec Nat) 0).1 (by decide)
  have h2 := (C8_popback (Vec.mkEmpty : Vec Nat) 0).2 rfl
  exact ⟨by rw [h1.2.2.1]; rfl, by rw [h1.1]; rfl, h2⟩

/-- C9: copy construction produces a vector of equal size with element-wise
equal contents in a freshly allocated buffer — a different address than the
source's, so writing through the copy leaves the original's elements
untouched, and the source is unchanged by the copy.  Copy assignment leaves
the destination element-wise equal to the source, and when the source's size
exceeds the destination's capacity it is exactly the full temporary copy
(`Vector rhs_copy(rhs)`) swapped in. -/
theorem C9_copy_semantics (bufs : List (List α)) (hv : HVec) (b i : Nat)
    (x : α) (dst src : Vec α)
    (hb : hv.buf = some b) (hlt : b < bufs.length) :
    (hcopyCtor bufs hv).2.size = hv.size ∧
    hread (hcopyCtor bufs hv).1 (hcopyCtor bufs hv).2 = hread bufs hv ∧
    (hcopyCtor bufs hv).2.buf ≠ hv.buf ∧
    hread (hcopyCtor bufs hv).1 hv = hread bufs hv ∧
    hread (hwrite (hcopyCtor bufs hv).1 (hcopyCtor bufs hv).2 i x) hv =
      hread bufs hv ∧
    (Vec.copyCtor src).Size = src.Size ∧
    (Vec.copyCtor src).elems = src.elems ∧
    (dst.copyAssign src).elems = src.elems ∧
    (src.Size > dst.Capacity → dst.copyAssign src = Vec.copyCtor src) := by
  have hfresh : (bufs ++ [hread bufs hv]).getD bufs.length [] =
      hread bufs hv := by
    rw [List.getD_eq_getElem?_getD,
      List.getElem?_append_right (Nat.le_refl _)]
    simp
  have hold : ∀ c : List α, (bufs ++ [c]).getD b [] = bufs.getD b [] :=
    fun c => by
      rw [List.getD_eq_getElem?_getD, List.getElem?_append_left hlt,
        ← List.getD_eq_getElem?_getD]
  refine ⟨rfl, ?_, ?_, ?_, ?_, rfl, rfl, copyAssign_elems dst src, ?_⟩
  · show ((bufs ++ [hread bufs hv]).getD bufs.length []).take hv.size =
      hread bufs hv
    rw [hfresh]
    show ((hbuf bufs hv).take hv.size).take hv.size = (hbuf bufs hv).take hv.size
    rw [List.take_take, Nat.min_self]
  · show some bufs.length ≠ hv.buf
    rw [hb]
    intro heq
    cases heq
    omega
  · show hread (bufs ++ [hread bufs hv]) hv = hread bufs hv
    rw [hread_eq (bufs ++ [hread bufs hv]) hv b hb, hread_eq bufs hv b hb,
      hold _]
  · show hread (hwrite (bufs ++ [hread bufs hv]) ⟨some bufs.length, hv.size⟩
        i x) hv = hread bufs hv
    rw [hwrite_some (bufs ++ [hread bufs hv]) ⟨some bufs.length, hv.size⟩
        bufs.length i x rfl,
      hread_eq _ hv b hb, hread_eq bufs hv b hb,
      List.getD_eq_getElem?_getD,
      List.getElem?_set_ne (show bufs.length ≠ b by omega),
      ← List.getD_eq_getElem?_getD, hold _]
  · intro h
    unfold Vec.copyAssign
    rw [if_pos h]

/-- Witness for C9: copying the vector `⟨buffer 0, size 2⟩` over the heap
`[[1, 2]]`, then writing 9 through the copy, leaves the original reading
`[1, 2]`; the copy lives at a fresh address. -/
theorem C9_witness :
    hread (hwrite (hcopyCtor [[1, 2]] (⟨some 0, 2⟩ : HVec)).1
        (hcopyCtor [[1, 2]] (⟨some 0, 2⟩ : HVec)).2 0 (9 : Nat))
      (⟨some 0, 2⟩ : HVec) = hread [[1, 2]] (⟨some 0, 2⟩ : HVec) ∧
    (hcopyCtor [[1, 2]] (⟨some 0, 2⟩ : HVec)).2.buf ≠
      (⟨some 0, 2⟩ : HVec).buf ∧
    (Vec.copyAssign (⟨[7], 1⟩ : Vec Nat) ⟨[1, 2], 2⟩).elems = [1, 2] := by
  have h := C9_copy_semantics [[1, 2]] (⟨some 0, 2⟩ : HVec) 0 0 (9 : Nat)
    (⟨[7], 1⟩ : Vec Nat) (⟨[1, 2], 2⟩ : Vec Nat) rfl (by decide)
  exact ⟨h.2.2.2.2.1, h.2.2.1, h.2.2.2.2.2.2.2.1⟩

/-- C10: inserting a vector's own element `v[i]` at any position `k` while
spare capacity is available inserts the value `v[i]` had before the
operation began, even when the shift displaces slot `i`: the within-capacity
path (`Moving`) constructs the temporary from the aliased argument before
the last element is moved and the range is shifted. -/
theorem C10_aliased_insert (v : Vec α) (d : α) (k i : Nat)
    (hcap : v.Size < v.Capacity) (_hi : i < v.Size) (hk : k ≤ v.Size) :
    (v.EmplaceAliased d k i).1.elems =
      v.elems.take k ++ [v.elems.getD i d] ++ v.elems.drop k ∧
    (v.EmplaceAliased d k i).1.elems.getD k d = v.elems.getD i d ∧
    (v.EmplaceAliased d k i).1.Size = v.Size + 1 ∧
    (v.EmplaceAliased d k i).2 = k := by
  have hk' : k ≤ v.elems.length := hk
  have helems : (v.EmplaceAliased d k i).1.elems =
      v.elems.take k ++ [v.elems.getD i d] ++ v.elems.drop k := by
    unfold Vec.EmplaceAliased
    by_cases h1 : k = v.Size
    · rw [if_pos h1]
      show (v.EmplaceBack (v.elems.getD i d)).elems = _
      rw [EmplaceBack_elems, h1]
      show v.elems ++ [v.elems.getD i d] =
        v.elems.take v.elems.length ++ [v.elems.getD i d] ++
          v.elems.drop v.elems.length
      rw [List.take_length, List.drop_length, List.append_nil]
    · rw [if_neg h1, if_neg (show ¬v.Size = v.Capacity by omega)]
      show MovingRunAliased v.elems d k i = _
      unfold MovingRunAliased
      exact MovingRun_eq v.elems d (v.elems.getD i d) k
        (by simp only [Size_def] at hk h1; omega)
  refine ⟨helems, ?_, ?_, ?_⟩
  · rw [helems, List.getD_eq_getElem?_getD,
      insertAt_getElem? v.elems (v.elems.getD i d) k k hk']
    simp
  · show (v.EmplaceAliased d k i).1.elems.length = v.elems.length + 1
    rw [helems, insertAt_length v.elems (v.elems.getD i d) k hk']
  · unfold Vec.EmplaceAliased
    split_ifs with h1 h2
    · exact h1.symm
    · rfl
    · rfl

/-- Witness for C10: inserting `v[1]` of `v = [10, 20, 30]` (capacity 4) at
position 0 — the shift displaces every slot, yet the inserted value is the
original `v[1] = 20`. -/
theorem C10_witness :
    (Vec.EmplaceAliased (⟨[10, 20, 30], 4⟩ : Vec Nat) 0 0 1).1.elems =
      [20, 10, 20, 30] ∧
    (Vec.EmplaceAliased (⟨[10, 20, 30], 4⟩ : Vec Nat) 0 0 1).1.elems.getD 0 0 =
      20 := by
  have h := C10_aliased_insert (⟨[10, 20, 30], 4⟩ : Vec Nat) 0 0 1
    (by decide) (by decide) (by decide)
  exact ⟨by rw [h.1]; rfl, by rw [h.2.1]; rfl⟩

end AdvancedVector
